import Mathlib

/-!
Verification of docling-jobkit against its natural-language specification.

The Python sources are shallowly embedded: strings become `List Char`,
Python sets are modeled as lists with membership semantics, fallible code
returns `Except`, and the remote S3 listings consumed by the reconciliation
engine are passed in as explicit list parameters.
-/

/-! ## Python string primitives

`str.replace(old, "")` removes every non-overlapping occurrence of `old`,
scanning left to right.  `removeAll` is that scan for a non-empty pattern;
`pyReplaceDel` adds Python's empty-pattern behavior
(`s.replace("", "") == s`). -/

def removeAllFuel (pat : List Char) : Nat → List Char → List Char
  | 0, _ => []
  | _ + 1, [] => []
  | fuel + 1, c :: rest =>
      if pat <+: (c :: rest) then removeAllFuel pat fuel (rest.drop (pat.length - 1))
      else c :: removeAllFuel pat fuel rest

def removeAll (pat s : List Char) : List Char :=
  removeAllFuel pat s.length s

def pyReplaceDel (s pat : List Char) : List Char :=
  if pat = [] then s else removeAll pat s

/-! ## Embedding of `docling_jobkit/connectors/s3_helper.py` -/

/-- `strip_prefix_postfix(source_set, prefix, extension)`:
`key.replace(extension, "").replace(prefix, "")` over every key of the set
(the Python set is modeled as a list with membership semantics). -/
def strip_pre_post (source_set : List (List Char)) (pre ext : List Char) :
    List (List Char) :=
  source_set.map fun key => pyReplaceDel (pyReplaceDel key ext) pre

/-- The source-key normalization inside `check_target_has_source_converted`:
`key.replace(".pdf", "").replace(s3_source_prefix + "/", "")`. -/
def cleanKey (s3_source_pre key : List Char) : List Char :=
  pyReplaceDel (pyReplaceDel key (".pdf".toList)) (s3_source_pre ++ "/".toList)

/-- `check_target_has_source_converted(coords, source_objects_list, s3_source_prefix)`.
The paginated S3 listing of the target bucket under
`coords.key_prefix + "/json/"` is passed in as `targetKeys` (the code derives
both `target_count` and `existing_target_objects` from that listing). -/
def check_target_has_source_converted (key_pre : List Char)
    (targetKeys : List (List Char)) (source_objects_list : List (List Char))
    (s3_source_pre : List Char) : List (List Char) :=
  let converted_pre := key_pre ++ "/json/".toList
  let target_count := targetKeys.length
  if target_count ≠ 0 then
    let target_short_key_list :=
      strip_pre_post targetKeys converted_pre (".json".toList)
    let filtered_source_keys :=
      source_objects_list.foldl
        (fun acc key =>
          if cleanKey s3_source_pre key ∈ target_short_key_list then acc
          else acc ++ [key])
        []
    filtered_source_keys
  else source_objects_list

/-- `generate_batch_keys`'s loop body: walks the enumerated keys carrying
`(batched_keys, sub_array, counter)`; flushes `sub_array` when
`counter == batch_size or (idx + 1) == array_lenght`. -/
def gbkLoop {α : Type} (batch_size : Int) (arr_len : Nat) :
    Nat → List (List α) → List α → Int → List α → List (List α)
  | _, batched, _, _, [] => batched
  | idx, batched, sub, counter, key :: rest =>
      let sub' := sub ++ [key]
      let counter' := counter + 1
      if counter' = batch_size ∨ idx + 1 = arr_len then
        gbkLoop batch_size arr_len (idx + 1) (batched ++ [sub']) [] 0 rest
      else
        gbkLoop batch_size arr_len (idx + 1) batched sub' counter' rest

/-- `generate_batch_keys(source_keys, batch_size=10)`. -/
def generate_batch_keys {α : Type} (source_keys : List α)
    (batch_size : Int := 10) : List (List α) :=
  gbkLoop batch_size source_keys.length 0 [] [] 0 source_keys

/-- The `check_batch_size` settings validator of `ray_job/main.py` (identical
in `dev/s3_helper_test.py`): raises `SettingsError` for a non-positive
batch size, otherwise returns the value. -/
def check_batch_size (v : Int) : Except (List Char) Int :=
  if v ≤ 0 then Except.error ("batch_size have to be higher than zero".toList)
  else Except.ok v

/-! ## Lemmas about the Python string scan -/

theorem removeAllFuel_nil (pat : List Char) (fuel : Nat) :
    removeAllFuel pat fuel [] = [] := by
  cases fuel <;> rfl

theorem removeAllFuel_cons (pat : List Char) (fuel : Nat) (c : Char)
    (rest : List Char) :
    removeAllFuel pat (fuel + 1) (c :: rest)
      = if pat <+: (c :: rest) then
          removeAllFuel pat fuel (rest.drop (pat.length - 1))
        else c :: removeAllFuel pat fuel rest := rfl

theorem gbkLoop_nil {α : Type} (K : Int) (al idx : Nat)
    (batched : List (List α)) (sub : List α) (counter : Int) :
    gbkLoop K al idx batched sub counter [] = batched := rfl

theorem gbkLoop_cons {α : Type} (K : Int) (al idx : Nat)
    (batched : List (List α)) (sub : List α) (counter : Int) (key : α)
    (rest : List α) :
    gbkLoop K al idx batched sub counter (key :: rest)
      = if counter + 1 = K ∨ idx + 1 = al then
          gbkLoop K al (idx + 1) (batched ++ [sub ++ [key]]) [] 0 rest
        else gbkLoop K al (idx + 1) batched (sub ++ [key]) (counter + 1) rest :=
  rfl

theorem removeAllFuel_clean (P : List Char) :
    ∀ (fuel : Nat) (S : List Char), S.length ≤ fuel →
      (∀ i < S.length, ¬ P <+: S.drop i) → removeAllFuel P fuel S = S := by
  intro fuel
  induction fuel with
  | zero =>
      intro S hS _
      have : S = [] := List.eq_nil_of_length_eq_zero (Nat.le_zero.mp hS)
      subst this; rfl
  | succ f ih =>
      intro S hS h
      cases S with
      | nil => rfl
      | cons c rest =>
          have h0 : ¬ P <+: (c :: rest) := by
            have := h 0 (by simp)
            simpa using this
          simp only [removeAllFuel, if_neg h0]
          congr 1
          exact ih rest (by simpa using Nat.lt_succ_iff.mp (Nat.lt_of_lt_of_le (Nat.lt_succ_self _) (Nat.succ_le_succ (Nat.le_of_succ_le_succ (by simpa using hS)))))
            (fun i hi => by simpa using h (i + 1) (by simpa using Nat.succ_lt_succ hi))

theorem removeAllFuel_strip_suffix (E : List Char) (hE : E ≠ []) :
    ∀ (fuel : Nat) (S : List Char), (S ++ E).length ≤ fuel →
      (∀ i < S.length, ¬ E <+: (S.drop i ++ E)) →
      removeAllFuel E fuel (S ++ E) = S := by
  intro fuel
  induction fuel with
  | zero =>
      intro S hS _
      cases E with
      | nil => exact absurd rfl hE
      | cons e E' => simp [List.length_append] at hS
  | succ f ih =>
      intro S hS h
      cases S with
      | nil =>
          cases E with
          | nil => exact absurd rfl hE
          | cons e E' =>
              show removeAllFuel (e :: E') (f + 1) ([] ++ (e :: E')) = []
              rw [List.nil_append, removeAllFuel_cons,
                if_pos (List.prefix_refl (e :: E')),
                show E'.drop ((e :: E').length - 1) = [] from
                  List.drop_eq_nil_of_le (by simp)]
              exact removeAllFuel_nil (e :: E') f
      | cons c S' =>
          have h0 : ¬ E <+: (c :: (S' ++ E)) := by
            have := h 0 (by simp)
            simpa using this
          rw [List.cons_append, removeAllFuel_cons, if_neg h0]
          congr 1
          apply ih S'
          · simp only [List.length_append, List.length_cons] at hS ⊢
            omega
          · intro i hi
            have := h (i + 1) (by simp only [List.length_cons]; omega)
            simpa using this

theorem removeAll_strip_suffix (E S : List Char) (hE : E ≠ [])
    (h : ∀ i < S.length, ¬ E <+: (S.drop i ++ E)) :
    removeAll E (S ++ E) = S :=
  removeAllFuel_strip_suffix E hE _ S le_rfl h

theorem removeAll_strip_prefix (P I : List Char) (hP : P ≠ [])
    (h : ∀ i < I.length, ¬ P <+: I.drop i) :
    removeAll P (P ++ I) = I := by
  cases P with
  | nil => exact absurd rfl hP
  | cons p P' =>
      show removeAllFuel (p :: P') ((p :: P') ++ I).length ((p :: P') ++ I) = I
      have hlen : ((p :: P') ++ I).length = (P' ++ I).length + 1 := by simp
      rw [hlen, List.cons_append, removeAllFuel_cons,
        if_pos (show (p :: P') <+: p :: (P' ++ I) by
          rw [← List.cons_append]; exact List.prefix_append (p :: P') I),
        show (P' ++ I).drop ((p :: P').length - 1) = I from by
          simp only [List.length_cons, Nat.add_sub_cancel]
          exact List.drop_left P' I]
      exact removeAllFuel_clean (p :: P') _ I
        (by simp only [List.length_append]; omega) h

/-! ## C1: the reconciliation filter -/

theorem foldl_skip_filter {α : Type} (p : α → Prop) [DecidablePred p] :
    ∀ (l acc : List α),
      l.foldl (fun a x => if p x then a else a ++ [x]) acc
        = acc ++ l.filter (fun x => decide (¬ p x)) := by
  intro l
  induction l with
  | nil => intro acc; simp
  | cons x xs ih =>
      intro acc
      by_cases hx : p x
      · simp [List.foldl_cons, if_pos hx, ih, List.filter_cons, hx]
      · simp [List.foldl_cons, if_neg hx, ih, List.filter_cons, hx]

/-- C1: reconciliation returns every source key when the target listing is
empty, and otherwise exactly the source keys whose canonical id is absent
from the target id set, in source order; the set examples of the spec are
instances. -/
theorem claim_C1_reconciliation :
    (∀ (kp : List Char) (targets sources : List (List Char)) (sp : List Char),
      check_target_has_source_converted kp targets sources sp
        = if targets.isEmpty then sources
          else sources.filter (fun key =>
            decide (cleanKey sp key ∉
              strip_pre_post targets (kp ++ "/json/".toList) (".json".toList))))
    ∧ check_target_has_source_converted ("tgt".toList)
        [("tgt/json/a.json".toList)]
        [("src/a.pdf".toList), ("src/b.pdf".toList), ("src/c.pdf".toList)]
        ("src".toList) = [("src/b.pdf".toList), ("src/c.pdf".toList)] := by
  constructor
  · intro kp targets sources sp
    cases targets with
    | nil => simp [check_target_has_source_converted]
    | cons t ts =>
        simp only [check_target_has_source_converted, List.length_cons,
          List.isEmpty_cons, if_neg (by omega : ¬ (ts.length + 1 = 0)),
          if_pos (by omega : ts.length + 1 ≠ 0)]
        rw [foldl_skip_filter
          (fun key => cleanKey sp key ∈
            strip_pre_post (t :: ts) (kp ++ "/json/".toList) (".json".toList))]
        simp
  · decide

/-! ## C3: no fail-fast inside `generate_batch_keys` -/

theorem gbkLoop_nonpos (K : Int) (hK : K ≤ 0) :
    ∀ (rest : List (List Char)) (idx : Nat) (batched : List (List (List Char)))
      (sub : List (List Char)) (counter : Int), 0 ≤ counter → rest ≠ [] →
      gbkLoop K (idx + rest.length) idx batched sub counter rest
        = batched ++ [sub ++ rest] := by
  intro rest
  induction rest with
  | nil => intro _ _ _ _ _ h; exact absurd rfl h
  | cons r rest' ih =>
      intro idx batched sub counter hc _
      cases rest' with
      | nil =>
          rw [gbkLoop_cons, if_pos (Or.inr (by simp))]
          rfl
      | cons r2 rest'' =>
          rw [gbkLoop_cons,
            if_neg (by push_neg; exact ⟨by omega, by simp only [List.length_cons]; omega⟩)]
          have harg : idx + (r :: r2 :: rest'').length
              = idx + 1 + (r2 :: rest'').length := by
            simp only [List.length_cons]; omega
          rw [harg, ih (idx + 1) batched (sub ++ [r]) (counter + 1) (by omega)
            (by simp)]
          simp

/-- C3 (amended): `generate_batch_keys` itself performs no validation — for a
non-positive batch size and non-empty key list it returns one batch holding
the whole list; the fail-fast invalid-configuration check lives in the
settings validator `check_batch_size`, which rejects non-positive values. -/
theorem claim_C3_no_fail_fast (keys : List (List Char)) (K : Int)
    (hK : K ≤ 0) (hkeys : keys ≠ []) :
    generate_batch_keys keys K = [keys] ∧ (check_batch_size K).isOk = false := by
  constructor
  · show gbkLoop K keys.length 0 [] [] 0 keys = [keys]
    have := gbkLoop_nonpos K hK keys 0 [] [] 0 le_rfl hkeys
    simpa using this
  · simp [check_batch_size, if_pos hK, Except.isOk, Except.toBool]

/-- Witness for C3's amended theorem at batch size `0` and three keys. -/
theorem claim_C3_no_fail_fast_witness :
    generate_batch_keys [("a".toList), ("b".toList), ("c".toList)] 0
        = [[("a".toList), ("b".toList), ("c".toList)]]
      ∧ (check_batch_size 0).isOk = false :=
  claim_C3_no_fail_fast [("a".toList), ("b".toList), ("c".toList)] 0
    (by decide) (by decide)

/-- C3 counterexample: called with batch size `0` and a non-empty key list,
reconciliation's batching step returns a batching (a single batch with every
key) instead of failing with an invalid-configuration error. -/
theorem claim_C3_counterexample :
    generate_batch_keys [("a".toList), ("b".toList), ("c".toList)] 0
      = [[("a".toList), ("b".toList), ("c".toList)]] := by
  decide

/-! ## C4: what key normalization actually strips -/

/-- C4 (amended): normalization removes every occurrence of the extension and
then every occurrence of the prefix; it returns exactly `id` for a key
`prefix + id + extension` provided the extension has no occurrence starting
inside `prefix + id` and the prefix has no occurrence inside `id`. -/
theorem claim_C4_normalization (P E I : List Char) (hP : P ≠ []) (hE : E ≠ [])
    (h1 : ∀ i < (P ++ I).length, ¬ E <+: ((P ++ I).drop i ++ E))
    (h2 : ∀ i < I.length, ¬ P <+: I.drop i) :
    pyReplaceDel (pyReplaceDel ((P ++ I) ++ E) E) P = I
      ∧ strip_pre_post [(P ++ I) ++ E] P E = [I] := by
  have hstep : pyReplaceDel (pyReplaceDel ((P ++ I) ++ E) E) P = I := by
    unfold pyReplaceDel
    rw [if_neg hE, removeAll_strip_suffix E (P ++ I) hE h1, if_neg hP]
    exact removeAll_strip_prefix P I hP h2
  exact ⟨hstep, by
    simp only [strip_pre_post, List.map_cons, List.map_nil, hstep]⟩

/-- Witness for C4's amended theorem at `prefix = "t/json/"`, `id = "a"`,
`extension = ".json"`. -/
theorem claim_C4_normalization_witness :
    pyReplaceDel
        (pyReplaceDel (("t/json/".toList ++ "a".toList) ++ ".json".toList)
          (".json".toList)) ("t/json/".toList) = "a".toList
      ∧ strip_pre_post [("t/json/".toList ++ "a".toList) ++ ".json".toList]
          ("t/json/".toList) (".json".toList) = [("a".toList)] :=
  claim_C4_normalization ("t/json/".toList) (".json".toList) ("a".toList)
    (by decide) (by decide) (by decide) (by decide)

/-- C4 counterexample: for `id = "a.json"` (the id contains the extension as
a substring) the normalization does not return `id`: `replace` removes every
occurrence, so the key collapses to `"a"`. -/
theorem claim_C4_counterexample :
    strip_pre_post
        [("t/json/".toList ++ "a.json".toList) ++ ".json".toList]
        ("t/json/".toList) (".json".toList) ≠ [("a.json".toList)] := by
  decide

/-! ## C2: fixed-size batch partitioning

`pychunkF`/`pychunk` is the declarative take/drop chunking; the loop of
`generate_batch_keys` is proved equal to it for a positive batch size. -/

def pychunkF {α : Type} (K : Nat) : Nat → List α → List (List α)
  | 0, _ => []
  | _ + 1, [] => []
  | fuel + 1, c :: rest => (c :: rest).take K :: pychunkF K fuel ((c :: rest).drop K)

def pychunk {α : Type} (K : Nat) (l : List α) : List (List α) :=
  pychunkF K l.length l

theorem pychunkF_nil {α : Type} (K fuel : Nat) :
    pychunkF K fuel ([] : List α) = [] := by
  cases fuel <;> rfl

theorem pychunkF_congr {α : Type} (K : Nat) (hK : 1 ≤ K) :
    ∀ (f g : Nat) (l : List α), l.length ≤ f → l.length ≤ g →
      pychunkF K f l = pychunkF K g l := by
  intro f
  induction f with
  | zero =>
      intro g l hf _
      have : l = [] := List.eq_nil_of_length_eq_zero (Nat.le_zero.mp hf)
      subst this
      rw [pychunkF_nil, pychunkF_nil]
  | succ f ih =>
      intro g l hf hg
      cases l with
      | nil => rw [pychunkF_nil, pychunkF_nil]
      | cons c rest =>
          cases g with
          | zero => simp at hg
          | succ g' =>
              show ((c :: rest).take K :: pychunkF K f ((c :: rest).drop K))
                = ((c :: rest).take K :: pychunkF K g' ((c :: rest).drop K))
              congr 1
              apply ih
              · simp only [List.length_drop, List.length_cons] at *
                omega
              · simp only [List.length_drop, List.length_cons] at *
                omega

theorem pychunk_cons {α : Type} (K : Nat) (hK : 1 ≤ K) (l : List α)
    (hl : l ≠ []) : pychunk K l = l.take K :: pychunk K (l.drop K) := by
  cases l with
  | nil => exact absurd rfl hl
  | cons c rest =>
      show ((c :: rest).take K :: pychunkF K rest.length ((c :: rest).drop K))
        = (c :: rest).take K :: pychunkF K ((c :: rest).drop K).length ((c :: rest).drop K)
      congr 1
      apply pychunkF_congr K hK
      · simp only [List.length_drop, List.length_cons]
        omega
      · exact le_rfl

theorem pychunk_ne_nil {α : Type} (K : Nat) (hK : 1 ≤ K) (l : List α)
    (hl : l ≠ []) : pychunk K l ≠ [] := by
  rw [pychunk_cons K hK l hl]
  simp

theorem gbkLoop_eq_pychunk {α : Type} (K : Int) (hK : 1 ≤ K) :
    ∀ (rest : List α) (idx : Nat) (batched : List (List α)) (sub : List α),
      sub.length < K.toNat → (rest = [] → sub = []) →
      gbkLoop K (idx + rest.length) idx batched sub (sub.length : Int) rest
        = batched ++ pychunk K.toNat (sub ++ rest) := by
  have hKn : 1 ≤ K.toNat := by omega
  intro rest
  induction rest with
  | nil =>
      intro idx batched sub _ hnil
      rw [hnil rfl, gbkLoop_nil]
      simp [pychunk, pychunkF_nil]
  | cons r rest' ih =>
      intro idx batched sub hsub _
      cases rest' with
      | nil =>
          rw [gbkLoop_cons, if_pos (Or.inr (by simp)), gbkLoop_nil]
          rw [pychunk_cons K.toNat hKn (sub ++ [r]) (by simp),
            List.take_of_length_le (by simp only [List.length_append, List.length_cons, List.length_nil]; omega),
            List.drop_eq_nil_of_le (by simp only [List.length_append, List.length_cons, List.length_nil]; omega)]
          simp [pychunk, pychunkF_nil]
      | cons r2 rest'' =>
          rw [gbkLoop_cons]
          by_cases hc : (sub.length : Int) + 1 = K
          · rw [if_pos (Or.inl hc)]
            have hlen1 : (sub ++ [r]).length = K.toNat := by
              simp only [List.length_append, List.length_cons, List.length_nil]
              omega
            have harg : idx + (r :: r2 :: rest'').length
                = idx + 1 + (r2 :: rest'').length := by
              simp only [List.length_cons]; omega
            rw [harg]
            rw [show (0 : Int) = ((([] : List α).length : Nat) : Int) from by simp]
            rw [ih (idx + 1) (batched ++ [sub ++ [r]]) [] (by simp only [List.length_nil]; omega) (by simp)]
            rw [pychunk_cons K.toNat hKn (sub ++ (r :: r2 :: rest'')) (by simp)]
            rw [show sub ++ (r :: r2 :: rest'') = (sub ++ [r]) ++ (r2 :: rest'') from by simp]
            rw [List.take_left' hlen1, List.drop_left' hlen1]
            simp
          · rw [if_neg (by
              push_neg
              exact ⟨hc, by simp only [List.length_cons]; omega⟩)]
            have harg : idx + (r :: r2 :: rest'').length
                = idx + 1 + (r2 :: rest'').length := by
              simp only [List.length_cons]; omega
            rw [harg]
            rw [show (sub.length : Int) + 1 = (((sub ++ [r]).length : Nat) : Int) from by
              simp only [List.length_append, List.length_cons, List.length_nil]
              push_cast
              ring]
            rw [ih (idx + 1) batched (sub ++ [r])
              (by simp only [List.length_append, List.length_cons, List.length_nil]; omega)
              (by simp)]
            simp

theorem generate_batch_keys_eq_pychunk {α : Type} (keys : List α) (K : Int)
    (hK : 1 ≤ K) : generate_batch_keys keys K = pychunk K.toNat keys := by
  show gbkLoop K keys.length 0 [] [] 0 keys = pychunk K.toNat keys
  have := gbkLoop_eq_pychunk K hK keys 0 [] []
    (by simp only [List.length_nil]; omega) (fun _ => rfl)
  simpa using this

theorem pychunk_join {α : Type} (K : Nat) (hK : 1 ≤ K) :
    ∀ (fuel : Nat) (l : List α), l.length ≤ fuel → (pychunk K l).flatten = l := by
  intro fuel
  induction fuel with
  | zero =>
      intro l h
      have : l = [] := List.eq_nil_of_length_eq_zero (Nat.le_zero.mp h)
      subst this; rfl
  | succ f ih =>
      intro l h
      cases l with
      | nil => rfl
      | cons c rest =>
          rw [pychunk_cons K hK _ (by simp), List.flatten_cons,
            ih ((c :: rest).drop K)
              (by simp only [List.length_drop, List.length_cons] at h ⊢; omega)]
          exact List.take_append_drop K (c :: rest)

theorem pychunk_length {α : Type} (K : Nat) (hK : 1 ≤ K) :
    ∀ (fuel : Nat) (l : List α), l.length ≤ fuel →
      (pychunk K l).length = (l.length + K - 1) / K := by
  intro fuel
  induction fuel with
  | zero =>
      intro l h
      have : l = [] := List.eq_nil_of_length_eq_zero (Nat.le_zero.mp h)
      subst this
      show (0 : Nat) = (0 + K - 1) / K
      rw [Nat.zero_add, Nat.div_eq_of_lt (by omega)]
  | succ f ih =>
      intro l h
      cases l with
      | nil =>
          show (0 : Nat) = (0 + K - 1) / K
          rw [Nat.zero_add, Nat.div_eq_of_lt (by omega)]
      | cons c rest =>
          rw [pychunk_cons K hK _ (by simp), List.length_cons,
            ih ((c :: rest).drop K)
              (by simp only [List.length_drop, List.length_cons] at h ⊢; omega)]
          simp only [List.length_drop, List.length_cons]
          by_cases hn : rest.length + 1 ≤ K
          · rw [show rest.length + 1 - K = 0 from by omega,
              show rest.length + 1 + K - 1 = rest.length + K from by omega,
              show (0 + K - 1) / K = 0 from Nat.div_eq_of_lt (by omega),
              show (rest.length + K) / K = 1 from
                Nat.div_eq_of_lt_le (by omega) (by omega)]
          · rw [show rest.length + 1 - K + K - 1 = rest.length from by omega,
              show rest.length + 1 + K - 1 = rest.length + K from by omega,
              Nat.add_div_right rest.length (by omega)]

theorem pychunk_sizes {α : Type} (K : Nat) (hK : 1 ≤ K) :
    ∀ (fuel : Nat) (l : List α), l.length ≤ fuel →
      (∀ b ∈ (pychunk K l).dropLast, b.length = K)
      ∧ (∀ b, (pychunk K l).getLast? = some b → 1 ≤ b.length ∧ b.length ≤ K) := by
  intro fuel
  induction fuel with
  | zero =>
      intro l h
      have : l = [] := List.eq_nil_of_length_eq_zero (Nat.le_zero.mp h)
      subst this
      exact ⟨by intro b hb; simp [pychunk, pychunkF_nil] at hb,
        by intro b hb; simp [pychunk, pychunkF_nil] at hb⟩
  | succ f ih =>
      intro l h
      cases l with
      | nil =>
          exact ⟨by intro b hb; simp [pychunk, pychunkF_nil] at hb,
            by intro b hb; simp [pychunk, pychunkF_nil] at hb⟩
      | cons c rest =>
          rw [pychunk_cons K hK _ (by simp)]
          have hdl : ((c :: rest).drop K).length ≤ f := by
            simp only [List.length_drop, List.length_cons] at h ⊢; omega
          by_cases hshort : rest.length + 1 ≤ K
          · have hdrop : (c :: rest).drop K = [] :=
              List.drop_eq_nil_of_le (by simp only [List.length_cons]; omega)
            rw [hdrop]
            constructor
            · intro b hb
              simp [pychunk, pychunkF_nil] at hb
            · intro b hb
              simp only [pychunk, List.length_nil, pychunkF_nil] at hb
              simp only [List.getLast?_singleton, Option.some.injEq] at hb
              subst hb
              simp only [List.length_take, List.length_cons]
              omega
          · have hdrop_ne : (c :: rest).drop K ≠ [] := by
              intro hcontra
              have := congrArg List.length hcontra
              simp only [List.length_drop, List.length_cons, List.length_nil] at this
              omega
            obtain ⟨b2, t2, hbt⟩ :=
              List.exists_cons_of_ne_nil (pychunk_ne_nil K hK _ hdrop_ne)
            constructor
            · intro b hb
              rw [hbt, List.dropLast_cons₂] at hb
              rcases List.mem_cons.mp hb with hb | hb
              · subst hb
                simp only [List.length_take, List.length_cons]
                omega
              · rw [← hbt] at hb
                exact (ih _ hdl).1 b hb
            · intro b hb
              rw [hbt, List.getLast?_cons_cons, ← hbt] at hb
              exact (ih _ hdl).2 b hb

/-- C2: for a positive batch size `K`, `generate_batch_keys` returns
`ceil(N / K)` batches; every batch except possibly the last has exactly `K`
items, the final batch holds between 1 and `K` items, and concatenating the
batches in order reproduces the input list exactly. -/
theorem claim_C2_batching {α : Type} (keys : List α) (K : Int) (hK : 1 ≤ K) :
    (generate_batch_keys keys K).length = (keys.length + K.toNat - 1) / K.toNat
    ∧ (generate_batch_keys keys K).flatten = keys
    ∧ (∀ b ∈ (generate_batch_keys keys K).dropLast, b.length = K.toNat)
    ∧ (∀ b, (generate_batch_keys keys K).getLast? = some b →
        1 ≤ b.length ∧ b.length ≤ K.toNat) := by
  have hKn : 1 ≤ K.toNat := by omega
  rw [generate_batch_keys_eq_pychunk keys K hK]
  exact ⟨pychunk_length K.toNat hKn keys.length keys le_rfl,
    pychunk_join K.toNat hKn keys.length keys le_rfl,
    (pychunk_sizes K.toNat hKn keys.length keys le_rfl).1,
    (pychunk_sizes K.toNat hKn keys.length keys le_rfl).2⟩

/-- Witness for C2 at the spec's `N = 10, K = 3` example
(4 batches of sizes `[3, 3, 3, 1]`). -/
theorem claim_C2_batching_witness :
    (generate_batch_keys [0, 1, 2, 3, 4, 5, 6, 7, 8, 9] (3 : Int)).length
        = (([0, 1, 2, 3, 4, 5, 6, 7, 8, 9] : List Nat).length + (3 : Int).toNat - 1)
            / (3 : Int).toNat
    ∧ (generate_batch_keys [0, 1, 2, 3, 4, 5, 6, 7, 8, 9] (3 : Int)).flatten
        = [0, 1, 2, 3, 4, 5, 6, 7, 8, 9]
    ∧ (∀ b ∈ (generate_batch_keys [0, 1, 2, 3, 4, 5, 6, 7, 8, 9] (3 : Int)).dropLast,
        b.length = (3 : Int).toNat)
    ∧ (∀ b, (generate_batch_keys [0, 1, 2, 3, 4, 5, 6, 7, 8, 9] (3 : Int)).getLast?
          = some b → 1 ≤ b.length ∧ b.length ≤ (3 : Int).toNat) :=
  claim_C2_batching [0, 1, 2, 3, 4, 5, 6, 7, 8, 9] 3 (by decide)

example :
    generate_batch_keys ["a", "b", "c", "d"] 3 = [["a", "b", "c"], ["d"]] := by
  decide

/-! ## Embedding of the orchestrators (C7, C8)

`rq/orchestrator.py`'s `get_queue_position` fetches the RQ job, maps the
queue's native status onto the local task status, and returns
`queue_pos + 1 if queue_pos is not None else 0`; any exception (unknown job
id, connection error) is caught and yields `None`.  The fetched pair
`(status, queue position)` is the input of the embedding; `fetched = none`
models `Job.fetch` raising. -/

inductive RQJobStatus : Type
  | queued | scheduled | started | finished | stopped | deferred | failed
  | canceled
deriving DecidableEq

/-- Modelled from the spec: the `TaskStatus` enum (`datamodel/task_meta.py`
is not in the sources); spec section 3: `PENDING → STARTED → {SUCCESS,
FAILURE}`. -/
inductive TaskStatus : Type
  | pending | started | success | failure
deriving DecidableEq

/-- The status mapping in `get_queue_position`: `FINISHED ↦ SUCCESS`,
`QUEUED`/`SCHEDULED ↦ PENDING`, `STARTED ↦ STARTED`, every other native
status falls into the `else` branch, `↦ FAILURE`. -/
def reconcile_status (s : RQJobStatus) : TaskStatus :=
  match s with
  | .finished => .success
  | .queued => .pending
  | .scheduled => .pending
  | .started => .started
  | _ => .failure

/-- `RQOrchestrator.get_queue_position`: returns the reported return value
and the new local task status (the code overwrites `task.task_status`
unconditionally with the mapped fetched status). -/
def rq_get_queue_position (fetched : Option (RQJobStatus × Option Nat))
    (current : TaskStatus) : Option Nat × TaskStatus :=
  match fetched with
  | none => (none, current)
  | some (st, qp) =>
      (some (match qp with | some p => p + 1 | none => 0), reconcile_status st)

/-- `LocalOrchestrator.get_queue_position`:
`queue_list.index(task_id) + 1 if task_id in queue_list else None`. -/
def local_get_queue_position (queue_list : List (List Char))
    (task_id : List Char) : Option Nat :=
  if task_id ∈ queue_list then some (queue_list.indexOf task_id + 1) else none

/-- The sequence of local task statuses observed across successive
`get_queue_position` calls whose fetches report the given native statuses
(a finished / started job has no queue position, so the position component
is `none`; it does not influence the status update). -/
def run_reconciliations (init : TaskStatus) :
    List RQJobStatus → List TaskStatus
  | [] => [init]
  | st :: rest =>
      init :: run_reconciliations (rq_get_queue_position (some (st, none)) init).2 rest

def statusRank : TaskStatus → Nat
  | .pending => 0
  | .started => 1
  | .success => 2
  | .failure => 2

/-- The claim's forward-only discipline: ranks never decrease and the
terminal states `SUCCESS`/`FAILURE` are never left. -/
def forward_ok (a b : TaskStatus) : Prop :=
  statusRank a ≤ statusRank b
    ∧ (a = .success → b = .success) ∧ (a = .failure → b = .failure)

instance : DecidableRel forward_ok := fun a b =>
  inferInstanceAs (Decidable (statusRank a ≤ statusRank b
    ∧ (a = .success → b = .success) ∧ (a = .failure → b = .failure)))

def monotone_trace : List TaskStatus → Bool
  | [] => true
  | [_] => true
  | a :: b :: t => decide (forward_ok a b) && monotone_trace (b :: t)

theorem monotone_trace_iff_chain :
    ∀ (tr : List TaskStatus),
      monotone_trace tr = true ↔ List.Chain' forward_ok tr := by
  intro tr
  match tr with
  | [] => simp [monotone_trace]
  | [a] => simp [monotone_trace]
  | a :: b :: t =>
      rw [List.chain'_cons]
      simp only [monotone_trace, Bool.and_eq_true, decide_eq_true_eq]
      rw [monotone_trace_iff_chain (b :: t)]

/-- C7 (amended): the status reconciliation inside `get_queue_position`
overwrites the local status with the image of the fetched native status
under the mapping, with no terminal-state guard: the observed status trace
is exactly `init` followed by the mapped fetch sequence, and it is
forward-monotone precisely when that mapped sequence is (e.g. it is not
when the queue reports `queued` after `finished` or after `deferred`). -/
theorem claim_C7_status_monotonicity (init : TaskStatus)
    (fetches : List RQJobStatus) :
    run_reconciliations init fetches = init :: fetches.map reconcile_status
    ∧ (List.Chain' forward_ok (init :: fetches.map reconcile_status) →
        monotone_trace (run_reconciliations init fetches) = true) := by
  have htrace : ∀ (i : TaskStatus) (fs : List RQJobStatus),
      run_reconciliations i fs = i :: fs.map reconcile_status := by
    intro i fs
    induction fs generalizing i with
    | nil => rfl
    | cons st rest ih =>
        show i :: run_reconciliations (reconcile_status st) rest
          = i :: (reconcile_status st :: rest.map reconcile_status)
        rw [ih (reconcile_status st)]
  refine ⟨htrace init fetches, fun hchain => ?_⟩
  rw [htrace init fetches, monotone_trace_iff_chain]
  exact hchain

/-- Witness for C7's amended theorem on the fetch sequence
`queued, started, finished`. -/
theorem claim_C7_status_monotonicity_witness :
    run_reconciliations TaskStatus.pending
        [RQJobStatus.queued, RQJobStatus.started, RQJobStatus.finished]
      = TaskStatus.pending ::
          ([RQJobStatus.queued, RQJobStatus.started, RQJobStatus.finished].map
            reconcile_status)
    ∧ monotone_trace
        (run_reconciliations TaskStatus.pending
          [RQJobStatus.queued, RQJobStatus.started, RQJobStatus.finished])
        = true :=
  ⟨(claim_C7_status_monotonicity TaskStatus.pending
      [RQJobStatus.queued, RQJobStatus.started, RQJobStatus.finished]).1,
    (claim_C7_status_monotonicity TaskStatus.pending
      [RQJobStatus.queued, RQJobStatus.started, RQJobStatus.finished]).2
      ((monotone_trace_iff_chain
        (TaskStatus.pending ::
          ([RQJobStatus.queued, RQJobStatus.started, RQJobStatus.finished].map
            reconcile_status))).mp (by decide))⟩

/-- C7 counterexample: a deferred job later becoming queued (an ordinary RQ
progression) drives the local status `FAILURE → PENDING`: the trace is
`[PENDING, FAILURE, PENDING]`, a transition out of a terminal state. -/
theorem claim_C7_counterexample :
    monotone_trace
        (run_reconciliations TaskStatus.pending
          [RQJobStatus.deferred, RQJobStatus.queued]) = false := by
  decide

/-- C8 (amended): the RQ backend returns `queue_pos + 1` (1-based) while the
job still has a queue position, `0` — not `None` — once the fetch succeeds
but the job is no longer queued (started or terminal), and `None` exactly
when the fetch raises (unknown id or connectivity error); the local backend
returns `index + 1` for a tracked id and `None` for an unknown one. -/
theorem claim_C8_queue_position :
    (∀ (st : RQJobStatus) (p : Nat) (cur : TaskStatus),
      (rq_get_queue_position (some (st, some p)) cur).1 = some (p + 1))
    ∧ (∀ (st : RQJobStatus) (cur : TaskStatus),
      (rq_get_queue_position (some (st, none)) cur).1 = some 0)
    ∧ (∀ (cur : TaskStatus), (rq_get_queue_position none cur).1 = none)
    ∧ (∀ (queue_list : List (List Char)) (task_id : List Char),
        task_id ∉ queue_list → local_get_queue_position queue_list task_id = none) := by
  refine ⟨fun _ _ _ => rfl, fun _ _ => rfl, fun _ => rfl, ?_⟩
  intro ql tid h
  simp [local_get_queue_position, h]

/-- Witness for C8's amended theorem: a queued job at position 2, a finished
job out of the queue, a failing fetch, and an untracked local id. -/
theorem claim_C8_queue_position_witness :
    (rq_get_queue_position (some (RQJobStatus.queued, some 2)) TaskStatus.pending).1
        = some 3
    ∧ (rq_get_queue_position (some (RQJobStatus.finished, none)) TaskStatus.pending).1
        = some 0
    ∧ (rq_get_queue_position none TaskStatus.pending).1 = none
    ∧ local_get_queue_position [] ("t1".toList) = none :=
  ⟨claim_C8_queue_position.1 RQJobStatus.queued 2 TaskStatus.pending,
    (claim_C8_queue_position.2).1 RQJobStatus.finished TaskStatus.pending,
    (claim_C8_queue_position.2).2.1 TaskStatus.pending,
    (claim_C8_queue_position.2).2.2 [] ("t1".toList) (by decide)⟩

/-- C8 counterexample: for a job that already finished (hence reports no
queue position), `get_queue_position` returns `0`, not `None` as the claim
states for terminal tasks. -/
theorem claim_C8_counterexample :
    (rq_get_queue_position (some (RQJobStatus.finished, none))
        TaskStatus.pending).1 ≠ none := by
  decide

/-! ## Embedding of `DoclingConvert.convert_documents` (C9)

Per-key effects of the loop body are summarized by an outcome oracle:
presign failure and disallowed extension `continue`; a raised
`ConversionError` is caught and only logged — control then falls through to
`if conv_res.status == ...` with `conv_res` still holding its previous
binding (unbound on the first document). -/

inductive ConvStatus : Type
  | success | partial_success | failure
deriving DecidableEq

structure ConvRes : Type where
  status : ConvStatus
  name : List Char
deriving DecidableEq

inductive KeyOutcome : Type
  | presignFail
  | extNotAllowed
  | convError
  | converted (r : ConvRes)

inductive PyError : Type
  | unboundLocalError
deriving DecidableEq

def statusMsg (r : ConvRes) : List Char :=
  match r.status with
  | .success => r.name ++ " - SUCCESS".toList
  | .partial_success => r.name ++ " - PARTIAL_SUCCESS".toList
  | .failure => r.name ++ " - FAILURE".toList

def convert_documents_loop (outcome : List Char → KeyOutcome) :
    List (List Char) → Option ConvRes → Except PyError (List (List Char))
  | [], _ => .ok []
  | key :: rest, conv_res =>
      match outcome key with
      | .presignFail => convert_documents_loop outcome rest conv_res
      | .extNotAllowed => convert_documents_loop outcome rest conv_res
      | .convError =>
          match conv_res with
          | none => .error .unboundLocalError
          | some prev =>
              (convert_documents_loop outcome rest (some prev)).map
                (fun msgs => statusMsg prev :: msgs)
      | .converted r =>
          (convert_documents_loop outcome rest (some r)).map
            (fun msgs => statusMsg r :: msgs)

def convert_documents (outcome : List Char → KeyOutcome)
    (object_keys : List (List Char)) : Except PyError (List (List Char)) :=
  convert_documents_loop outcome object_keys none

/-- C9: when the first document's conversion raises `ConversionError`, the
caught-and-logged exception leaves `conv_res` unbound; the following status
check raises `UnboundLocalError`, aborting the generator — the sibling
document is never processed and no per-document failure entry is produced,
so the failure is not isolated. -/
theorem claim_C9_failure_not_isolated :
    convert_documents (fun _ => KeyOutcome.convError)
        [("src/a.pdf".toList), ("src/b.pdf".toList)]
      = Except.error PyError.unboundLocalError := rfl

/-! ## Embedding of `connectors/target_processor_factory.py` (C10) -/

structure S3Coordinates : Type where
  endpoint : List Char
  verify_ssl : Bool
  access_key : List Char
  secret_key : List Char
  bucket : List Char
  key_prefix : List Char
deriving DecidableEq

/-- `TaskTarget` (`datamodel/task_targets.py`): discriminated union of
`InBodyTarget`, `ZipTarget`, `S3Target`, `PutTarget`; `S3Target` and
`PutTarget` are distinct classes each extending `S3Coordinates`. -/
inductive TaskTarget : Type
  | inbody
  | zip
  | s3 (coords : S3Coordinates)
  | put (coords : S3Coordinates)
deriving DecidableEq

/-- Modelled from the spec: `S3TargetProcessor` lives in
`connectors/s3_target_processor.py`, which is not in the sources; the claim
only needs that the factory constructs it from the `S3Target`. -/
inductive BaseTargetProcessor : Type
  | s3TargetProcessor (target : S3Coordinates)
deriving DecidableEq

/-- `get_target_processor`: `isinstance(target, S3Target)` →
`S3TargetProcessor(target)`; every other variant raises `RuntimeError`
(`PutTarget` does not subclass `S3Target`, so it also raises). -/
def get_target_processor (t : TaskTarget) :
    Except (List Char) BaseTargetProcessor :=
  match t with
  | .s3 c => .ok (.s3TargetProcessor c)
  | _ => .error ("No target processor for this target.".toList)

/-- C10: dispatch succeeds exactly on the object-store (`s3`) variant,
returning an `S3TargetProcessor`; `inbody`, `zip` and `put` targets raise a
`RuntimeError`. -/
theorem claim_C10_target_dispatch :
    (∀ (c : S3Coordinates),
      get_target_processor (TaskTarget.s3 c)
        = Except.ok (BaseTargetProcessor.s3TargetProcessor c))
    ∧ (∀ (t : TaskTarget),
        (get_target_processor t).isOk = true ↔ ∃ c, t = TaskTarget.s3 c) := by
  refine ⟨fun _ => rfl, fun t => ?_⟩
  cases t with
  | inbody => simp [get_target_processor, Except.isOk, Except.toBool]
  | zip => simp [get_target_processor, Except.isOk, Except.toBool]
  | s3 c => simp [get_target_processor, Except.isOk, Except.toBool]
  | put c => simp [get_target_processor, Except.isOk, Except.toBool]

/-! ## C6: the lock-scoped get-or-create of `DocumentChunkerManager`

`_get_chunker` holds `self._cache_lock` across the whole
`self._get_chunker_from_cache(cache_key)` call, i.e. across
lookup-through-construction of the `lru_cache`-backed table.  `N` threads
calling get-or-create for the same key are modeled as an interleaving
transition system: a thread acquires the lock, consults the table, on a
miss runs the chunker constructor and stores the entry, and releases the
lock.  The scheduler may interleave threads arbitrarily; the lock is the
only synchronization. -/

inductive Phase : Type
  | start
  | acquired
  | checked (hit : Bool)
  | constructed
  | finished
deriving DecidableEq

structure GetChunkerState (n : Nat) : Type where
  lock : Option (Fin n)
  cached : Bool
  constructions : Nat
  phase : Fin n → Phase

inductive GetChunkerStep {n : Nat} :
    GetChunkerState n → GetChunkerState n → Prop
  | acquire (t : Fin n) (s : GetChunkerState n)
      (hl : s.lock = none) (hp : s.phase t = Phase.start) :
      GetChunkerStep s
        { s with lock := some t, phase := Function.update s.phase t Phase.acquired }
  | check (t : Fin n) (s : GetChunkerState n)
      (hl : s.lock = some t) (hp : s.phase t = Phase.acquired) :
      GetChunkerStep s
        { s with phase := Function.update s.phase t (Phase.checked s.cached) }
  | construct (t : Fin n) (s : GetChunkerState n)
      (hl : s.lock = some t) (hp : s.phase t = Phase.checked false) :
      GetChunkerStep s
        { s with cached := true, constructions := s.constructions + 1,
                 phase := Function.update s.phase t Phase.constructed }
  | releaseHit (t : Fin n) (s : GetChunkerState n)
      (hl : s.lock = some t) (hp : s.phase t = Phase.checked true) :
      GetChunkerStep s
        { s with lock := none, phase := Function.update s.phase t Phase.finished }
  | releaseConstructed (t : Fin n) (s : GetChunkerState n)
      (hl : s.lock = some t) (hp : s.phase t = Phase.constructed) :
      GetChunkerStep s
        { s with lock := none, phase := Function.update s.phase t Phase.finished }

def getChunkerInit (n : Nat) : GetChunkerState n :=
  { lock := none, cached := false, constructions := 0, phase := fun _ => Phase.start }

def GetChunkerInv {n : Nat} (s : GetChunkerState n) : Prop :=
  (s.constructions = if s.cached then 1 else 0)
  ∧ (∀ t, s.phase t = Phase.acquired → s.lock = some t)
  ∧ (∀ t b, s.phase t = Phase.checked b → s.lock = some t)
  ∧ (∀ t, s.phase t = Phase.constructed → s.lock = some t)
  ∧ (∀ t, s.phase t = Phase.checked false → s.cached = false)
  ∧ (∀ t, s.phase t = Phase.checked true → s.cached = true)
  ∧ (∀ t, s.phase t = Phase.constructed → s.cached = true)
  ∧ (∀ t, s.phase t = Phase.finished → s.cached = true)

theorem getChunkerInv_init (n : Nat) : GetChunkerInv (getChunkerInit n) := by
  refine ⟨rfl, ?_, ?_, ?_, ?_, ?_, ?_, ?_⟩ <;>
    intro t <;> simp [getChunkerInit]

theorem getChunkerInv_step {n : Nat} {s s' : GetChunkerState n}
    (hstep : GetChunkerStep s s') (hinv : GetChunkerInv s) :
    GetChunkerInv s' := by
  obtain ⟨i1, i2, i3, i4, i5, i6, i7, i8⟩ := hinv
  cases hstep with
  | acquire t s hl hp =>
      refine ⟨i1, ?_, ?_, ?_, ?_, ?_, ?_, ?_⟩ <;> intro t'
      · intro h'
        by_cases ht : t' = t
        · subst ht; rfl
        · simp only [Function.update_noteq ht] at h'
          rw [i2 t' h'] at hl
          exact Option.noConfusion hl
      · intro b h'
        by_cases ht : t' = t
        · subst ht; simp only [Function.update_same] at h'; cases h'
        · simp only [Function.update_noteq ht] at h'
          rw [i3 t' b h'] at hl
          exact Option.noConfusion hl
      · intro h'
        by_cases ht : t' = t
        · subst ht; simp only [Function.update_same] at h'; cases h'
        · simp only [Function.update_noteq ht] at h'
          rw [i4 t' h'] at hl
          exact Option.noConfusion hl
      · intro h'
        by_cases ht : t' = t
        · subst ht; simp only [Function.update_same] at h'; cases h'
        · simp only [Function.update_noteq ht] at h'; exact i5 t' h'
      · intro h'
        by_cases ht : t' = t
        · subst ht; simp only [Function.update_same] at h'; cases h'
        · simp only [Function.update_noteq ht] at h'; exact i6 t' h'
      · intro h'
        by_cases ht : t' = t
        · subst ht; simp only [Function.update_same] at h'; cases h'
        · simp only [Function.update_noteq ht] at h'; exact i7 t' h'
      · intro h'
        by_cases ht : t' = t
        · subst ht; simp only [Function.update_same] at h'; cases h'
        · simp only [Function.update_noteq ht] at h'; exact i8 t' h'
  | check t s hl hp =>
      refine ⟨i1, ?_, ?_, ?_, ?_, ?_, ?_, ?_⟩ <;> intro t'
      · intro h'
        by_cases ht : t' = t
        · subst ht; simp only [Function.update_same] at h'; cases h'
        · simp only [Function.update_noteq ht] at h'; exact i2 t' h'
      · intro b h'
        by_cases ht : t' = t
        · subst ht; exact hl
        · simp only [Function.update_noteq ht] at h'; exact i3 t' b h'
      · intro h'
        by_cases ht : t' = t
        · subst ht; simp only [Function.update_same] at h'; cases h'
        · simp only [Function.update_noteq ht] at h'; exact i4 t' h'
      · intro h'
        by_cases ht : t' = t
        · subst ht; simp only [Function.update_same] at h'
          injection h'
        · simp only [Function.update_noteq ht] at h'; exact i5 t' h'
      · intro h'
        by_cases ht : t' = t
        · subst ht; simp only [Function.update_same] at h'
          injection h'
        · simp only [Function.update_noteq ht] at h'; exact i6 t' h'
      · intro h'
        by_cases ht : t' = t
        · subst ht; simp only [Function.update_same] at h'; cases h'
        · simp only [Function.update_noteq ht] at h'; exact i7 t' h'
      · intro h'
        by_cases ht : t' = t
        · subst ht; simp only [Function.update_same] at h'; cases h'
        · simp only [Function.update_noteq ht] at h'; exact i8 t' h'
  | construct t s hl hp =>
      have hcf : s.cached = false := i5 t hp
      refine ⟨?_, ?_, ?_, ?_, ?_, ?_, ?_, ?_⟩
      · show s.constructions + 1 = if true then 1 else 0
        rw [i1, hcf]
        decide
      all_goals intro t'
      · intro h'
        by_cases ht : t' = t
        · subst ht; simp only [Function.update_same] at h'; cases h'
        · simp only [Function.update_noteq ht] at h'; exact i2 t' h'
      · intro b h'
        by_cases ht : t' = t
        · subst ht; simp only [Function.update_same] at h'; cases h'
        · simp only [Function.update_noteq ht] at h'; exact i3 t' b h'
      · intro h'
        by_cases ht : t' = t
        · subst ht; exact hl
        · simp only [Function.update_noteq ht] at h'; exact i4 t' h'
      · intro h'
        by_cases ht : t' = t
        · subst ht; simp only [Function.update_same] at h'; cases h'
        · simp only [Function.update_noteq ht] at h'
          have := i3 t' false h'
          rw [hl] at this
          injection this with h2
          exact absurd h2.symm ht
      · intro _; rfl
      · intro _; rfl
      · intro _; rfl
  | releaseHit t s hl hp =>
      have hct : s.cached = true := i6 t hp
      refine ⟨i1, ?_, ?_, ?_, ?_, ?_, ?_, ?_⟩ <;> intro t'
      · intro h'
        by_cases ht : t' = t
        · subst ht; simp only [Function.update_same] at h'; cases h'
        · simp only [Function.update_noteq ht] at h'
          have := i2 t' h'
          rw [hl] at this
          injection this with h2
          exact absurd h2.symm ht
      · intro b h'
        by_cases ht : t' = t
        · subst ht; simp only [Function.update_same] at h'; cases h'
        · simp only [Function.update_noteq ht] at h'
          have := i3 t' b h'
          rw [hl] at this
          injection this with h2
          exact absurd h2.symm ht
      · intro h'
        by_cases ht : t' = t
        · subst ht; simp only [Function.update_same] at h'; cases h'
        · simp only [Function.update_noteq ht] at h'
          have := i4 t' h'
          rw [hl] at this
          injection this with h2
          exact absurd h2.symm ht
      · intro h'
        by_cases ht : t' = t
        · subst ht; simp only [Function.update_same] at h'; cases h'
        · simp only [Function.update_noteq ht] at h'; exact i5 t' h'
      · intro h'
        by_cases ht : t' = t
        · subst ht; simp only [Function.update_same] at h'; cases h'
        · simp only [Function.update_noteq ht] at h'; exact i6 t' h'
      · intro h'
        by_cases ht : t' = t
        · subst ht; simp only [Function.update_same] at h'; cases h'
        · simp only [Function.update_noteq ht] at h'; exact i7 t' h'
      · intro h'
        by_cases ht : t' = t
        · subst ht; exact hct
        · simp only [Function.update_noteq ht] at h'; exact i8 t' h'
  | releaseConstructed t s hl hp =>
      have hct : s.cached = true := i7 t hp
      refine ⟨i1, ?_, ?_, ?_, ?_, ?_, ?_, ?_⟩ <;> intro t'
      · intro h'
        by_cases ht : t' = t
        · subst ht; simp only [Function.update_same] at h'; cases h'
        · simp only [Function.update_noteq ht] at h'
          have := i2 t' h'
          rw [hl] at this
          injection this with h2
          exact absurd h2.symm ht
      · intro b h'
        by_cases ht : t' = t
        · subst ht; simp only [Function.update_same] at h'; cases h'
        · simp only [Function.update_noteq ht] at h'
          have := i3 t' b h'
          rw [hl] at this
          injection this with h2
          exact absurd h2.symm ht
      · intro h'
        by_cases ht : t' = t
        · subst ht; simp only [Function.update_same] at h'; cases h'
        · simp only [Function.update_noteq ht] at h'
          have := i4 t' h'
          rw [hl] at this
          injection this with h2
          exact absurd h2.symm ht
      · intro h'
        by_cases ht : t' = t
        · subst ht; simp only [Function.update_same] at h'; cases h'
        · simp only [Function.update_noteq ht] at h'; exact i5 t' h'
      · intro h'
        by_cases ht : t' = t
        · subst ht; simp only [Function.update_same] at h'; cases h'
        · simp only [Function.update_noteq ht] at h'; exact i6 t' h'
      · intro h'
        by_cases ht : t' = t
        · subst ht; simp only [Function.update_same] at h'; cases h'
        · simp only [Function.update_noteq ht] at h'; exact i7 t' h'
      · intro h'
        by_cases ht : t' = t
        · subst ht; exact hct
        · simp only [Function.update_noteq ht] at h'; exact i8 t' h'

theorem getChunkerInv_reachable {n : Nat} {s : GetChunkerState n}
    (h : Relation.ReflTransGen GetChunkerStep (getChunkerInit n) s) :
    GetChunkerInv s := by
  induction h with
  | refl => exact getChunkerInv_init n
  | tail _ hstep ih => exact getChunkerInv_step hstep ih

/-- C6: in every interleaving of `N ≥ 1` concurrent `_get_chunker` calls for
the same cache key in which all callers have returned, the underlying
chunker constructor ran exactly once — the lock spans
lookup-through-construction, so a second construction for the key is
impossible. -/
theorem claim_C6_constructor_once {n : Nat} (s : GetChunkerState n)
    (hreach : Relation.ReflTransGen GetChunkerStep (getChunkerInit n) s)
    (hdone : ∀ t, s.phase t = Phase.finished) (hn : 1 ≤ n) :
    s.constructions = 1 := by
  obtain ⟨i1, _, _, _, _, _, _, i8⟩ := getChunkerInv_reachable hreach
  have hcached : s.cached = true := i8 ⟨0, by omega⟩ (hdone ⟨0, by omega⟩)
  rw [i1, hcached]
  decide

/-- A serial demonstration run for one caller: acquire, miss, construct,
release. -/
def c6s1 : GetChunkerState 1 :=
  { lock := some 0
    cached := (getChunkerInit 1).cached
    constructions := (getChunkerInit 1).constructions
    phase := Function.update (getChunkerInit 1).phase 0 Phase.acquired }

def c6s2 : GetChunkerState 1 :=
  { lock := c6s1.lock
    cached := c6s1.cached
    constructions := c6s1.constructions
    phase := Function.update c6s1.phase 0 (Phase.checked c6s1.cached) }

def c6s3 : GetChunkerState 1 :=
  { lock := c6s2.lock
    cached := true
    constructions := c6s2.constructions + 1
    phase := Function.update c6s2.phase 0 Phase.constructed }

def c6s4 : GetChunkerState 1 :=
  { lock := none
    cached := c6s3.cached
    constructions := c6s3.constructions
    phase := Function.update c6s3.phase 0 Phase.finished }

theorem c6_demo_reachable :
    Relation.ReflTransGen GetChunkerStep (getChunkerInit 1) c6s4 :=
  Relation.ReflTransGen.tail
    (Relation.ReflTransGen.tail
      (Relation.ReflTransGen.tail
        (Relation.ReflTransGen.tail Relation.ReflTransGen.refl
          (GetChunkerStep.acquire 0 (getChunkerInit 1) rfl rfl))
        (GetChunkerStep.check 0 c6s1 rfl (by decide)))
      (GetChunkerStep.construct 0 c6s2 rfl (by decide)))
    (GetChunkerStep.releaseConstructed 0 c6s3 rfl (by decide))

/-- Witness for C6 on a completed one-caller interleaving. -/
theorem claim_C6_constructor_once_witness :
    (Relation.ReflTransGen GetChunkerStep (getChunkerInit 1) c6s4
      ∧ (∀ t, c6s4.phase t = Phase.finished) ∧ 1 ≤ 1)
    ∧ c6s4.constructions = 1 :=
  ⟨⟨c6_demo_reachable, by decide, le_rfl⟩,
    claim_C6_constructor_once c6s4 c6_demo_reachable (by decide) le_rfl⟩

/-! ## C5: the chunker cache key (`DocumentChunkerManager._generate_cache_key`)

`_generate_cache_key` builds
`key_data = {"tokenizer": ..., "max_tokens": ..., "merge_peers": ...,
"use_markdown_tables": ...}`, serializes it with
`json.dumps(key_data, sort_keys=True)` and hashes the bytes with SHA-1.
The serialization is embedded faithfully (CPython's
`json.encoder.py_encode_basestring_ascii` escaping, `int.__repr__` for
numbers, items sorted by key); the digest itself is external library code
treated as an abstract parameter — the spec requires of it only collision
resistance, which is the injectivity hypothesis of the theorem. -/

inductive JsonVal : Type
  | str (s : List Char)
  | num (n : Int)
  | bool (b : Bool)
  | null
deriving DecidableEq

def hexDig : Nat → Char
  | 0 => '0' | 1 => '1' | 2 => '2' | 3 => '3' | 4 => '4'
  | 5 => '5' | 6 => '6' | 7 => '7' | 8 => '8' | 9 => '9'
  | 10 => 'a' | 11 => 'b' | 12 => 'c' | 13 => 'd' | 14 => 'e' | 15 => 'f'
  | _ => '0'

def hex4 (n : Nat) : List Char :=
  [hexDig (n / 4096 % 16), hexDig (n / 256 % 16), hexDig (n / 16 % 16),
    hexDig (n % 16)]

/-- CPython `json.encoder`: characters in `0x20..0x7e` other than `\` and
`"` are literal; `\`, `"`, backspace, tab, newline, form feed and carriage
return use two-character escapes; every other character becomes `\uXXXX`
(a surrogate pair for code points above `0xFFFF`). -/
def escChar (c : Char) : List Char :=
  if c = '\\' then ['\\', '\\']
  else if c = '"' then ['\\', '"']
  else if c.toNat = 8 then ['\\', 'b']
  else if c.toNat = 9 then ['\\', 't']
  else if c.toNat = 10 then ['\\', 'n']
  else if c.toNat = 12 then ['\\', 'f']
  else if c.toNat = 13 then ['\\', 'r']
  else if 0x20 ≤ c.toNat ∧ c.toNat ≤ 0x7e then [c]
  else if c.toNat < 0x10000 then '\\' :: 'u' :: hex4 c.toNat
  else
    ('\\' :: 'u' :: hex4 (0xd800 + (c.toNat - 0x10000) / 0x400))
      ++ ('\\' :: 'u' :: hex4 (0xdc00 + (c.toNat - 0x10000) % 0x400))

def escape : List Char → List Char
  | [] => []
  | c :: rest => escChar c ++ escape rest

def renderString (s : List Char) : List Char :=
  '"' :: (escape s ++ ['"'])

def natReprAux : Nat → Nat → List Char
  | 0, _ => []
  | fuel + 1, n =>
      if n < 10 then [hexDig n]
      else natReprAux fuel (n / 10) ++ [hexDig (n % 10)]

def natRepr (n : Nat) : List Char := natReprAux (n + 1) n

/-- `int.__repr__`. -/
def intRepr (i : Int) : List Char :=
  if i < 0 then '-' :: natRepr (-i).toNat else natRepr i.toNat

def renderJson : JsonVal → List Char
  | .str s => renderString s
  | .num n => intRepr n
  | .bool true => "true".toList
  | .bool false => "false".toList
  | .null => "null".toList

def renderPair (p : List Char × JsonVal) : List Char :=
  renderString p.1 ++ ": ".toList ++ renderJson p.2

def joinComma : List (List Char) → List Char
  | [] => []
  | [x] => x
  | x :: y :: t => x ++ ", ".toList ++ joinComma (y :: t)

/-- Python string `<`: code-point lexicographic order. -/
def strLt : List Char → List Char → Bool
  | _, [] => false
  | [], _ :: _ => true
  | a :: as, b :: bs =>
      if a < b then true
      else if a = b then strLt as bs
      else false

def pairLe (p q : List Char × JsonVal) : Prop :=
  strLt p.1 q.1 = true ∨ p.1 = q.1

instance : DecidableRel pairLe := fun p q =>
  inferInstanceAs (Decidable (strLt p.1 q.1 = true ∨ p.1 = q.1))

/-- `sorted(dct.items())` (dict keys are unique, so compares keys). -/
def sortPairs (l : List (List Char × JsonVal)) : List (List Char × JsonVal) :=
  List.insertionSort pairLe l

/-- `json.dumps(dct, sort_keys=True)` with the default separators. -/
def json_dumps_sorted (pairs : List (List Char × JsonVal)) : List Char :=
  '\x7b' :: (joinComma ((sortPairs pairs).map renderPair) ++ ['\x7d'])

/-- Modelled from the spec: `ChunkingOptions` (its datamodel module is not
in the sources); the four fields read by `_generate_cache_key`, with types
pinned by `tests/test_chunking.py` (optional tokenizer defaulting to
`None`, integer `max_tokens`, boolean `merge_peers` and
`use_markdown_tables`). -/
structure ChunkingOptions : Type where
  tokenizer : Option (List Char)
  max_tokens : Int
  merge_peers : Bool
  use_markdown_tables : Bool
deriving DecidableEq

def tokVal (o : ChunkingOptions) : JsonVal :=
  match o.tokenizer with
  | none => JsonVal.null
  | some t => JsonVal.str t

/-- The `key_data` dict in its insertion order. -/
def key_data (o : ChunkingOptions) : List (List Char × JsonVal) :=
  [("tokenizer".toList, tokVal o),
   ("max_tokens".toList, JsonVal.num o.max_tokens),
   ("merge_peers".toList, JsonVal.bool o.merge_peers),
   ("use_markdown_tables".toList, JsonVal.bool o.use_markdown_tables)]

/-- `_generate_cache_key`, with the digest abstract. -/
def generate_cache_key (digest : List Char → List Char)
    (options : ChunkingOptions) : List Char :=
  digest (json_dumps_sorted (key_data options))

example :
    json_dumps_sorted (key_data
        { tokenizer := none, max_tokens := 512,
          merge_peers := true, use_markdown_tables := false })
      = ("\x7b\"max_tokens\": 512, \"merge_peers\": true, \"tokenizer\": null, \"use_markdown_tables\": false\x7d").toList := by
  decide

example : escape ("a\"b\\c".toList) = "a\\\"b\\\\c".toList := by decide

example : intRepr (-507) = "-507".toList := by decide

theorem strLt_nil_cons (b0 : Char) (bs : List Char) :
    strLt [] (b0 :: bs) = true := rfl

theorem strLt_not_nil (a : List Char) : strLt a [] = false := by
  cases a <;> rfl

theorem strLt_cons (a0 b0 : Char) (as bs : List Char) :
    strLt (a0 :: as) (b0 :: bs)
      = if a0 < b0 then true else if a0 = b0 then strLt as bs else false := rfl

theorem strLt_trans :
    ∀ a b c, strLt a b = true → strLt b c = true → strLt a c = true := by
  intro a
  induction a with
  | nil =>
      intro b c h1 h2
      cases b with
      | nil => rw [strLt_not_nil] at h1; cases h1
      | cons b0 bs =>
          cases c with
          | nil => rw [strLt_not_nil] at h2; cases h2
          | cons c0 cs => rfl
  | cons a0 as ih =>
      intro b c h1 h2
      cases b with
      | nil => rw [strLt_not_nil] at h1; cases h1
      | cons b0 bs =>
          cases c with
          | nil => rw [strLt_not_nil] at h2; cases h2
          | cons c0 cs =>
              rw [strLt_cons] at h1 h2 ⊢
              by_cases l1 : a0 < b0
              · by_cases l2 : b0 < c0
                · rw [if_pos (lt_trans l1 l2)]
                · by_cases e2 : b0 = c0
                  · subst e2
                    rw [if_pos l1]
                  · rw [if_neg l2, if_neg e2] at h2; cases h2
              · by_cases e1 : a0 = b0
                · subst e1
                  rw [if_neg l1] at h1
                  rw [if_pos rfl] at h1
                  by_cases l2 : a0 < c0
                  · rw [if_pos l2]
                  · by_cases e2 : a0 = c0
                    · subst e2
                      rw [if_neg l2, if_pos rfl] at h2 ⊢
                      exact ih bs cs h1 h2
                    · rw [if_neg l2, if_neg e2] at h2; cases h2
                · rw [if_neg l1, if_neg e1] at h1; cases h1

theorem strLt_asymm :
    ∀ a b, strLt a b = true → strLt b a = true → False := by
  intro a
  induction a with
  | nil =>
      intro b h1 h2
      rw [strLt_not_nil] at h2; cases h2
  | cons a0 as ih =>
      intro b h1 h2
      cases b with
      | nil => rw [strLt_not_nil] at h1; cases h1
      | cons b0 bs =>
          rw [strLt_cons] at h1 h2
          by_cases l1 : a0 < b0
          · rw [if_neg (lt_asymm l1), if_neg (ne_of_gt l1)] at h2; cases h2
          · by_cases e1 : a0 = b0
            · subst e1
              rw [if_neg l1, if_pos rfl] at h1 h2
              exact ih bs h1 h2
            · rw [if_neg l1, if_neg e1] at h1; cases h1

theorem strLt_total :
    ∀ a b, a ≠ b → strLt a b = true ∨ strLt b a = true := by
  intro a
  induction a with
  | nil =>
      intro b hne
      cases b with
      | nil => exact absurd rfl hne
      | cons b0 bs => exact Or.inl rfl
  | cons a0 as ih =>
      intro b hne
      cases b with
      | nil => exact Or.inr rfl
      | cons b0 bs =>
          rcases lt_trichotomy a0 b0 with hlt | heq | hgt
          · left; rw [strLt_cons, if_pos hlt]
          · subst heq
            have hne' : as ≠ bs := fun h => hne (by rw [h])
            rcases ih bs hne' with h | h
            · left; rw [strLt_cons, if_neg (lt_irrefl a0), if_pos rfl]; exact h
            · right; rw [strLt_cons, if_neg (lt_irrefl a0), if_pos rfl]; exact h
          · right; rw [strLt_cons, if_pos hgt]

instance : IsTotal (List Char × JsonVal) pairLe :=
  ⟨fun p q => by
    by_cases h : p.1 = q.1
    · exact Or.inl (Or.inr h)
    · rcases strLt_total p.1 q.1 h with h' | h'
      · exact Or.inl (Or.inl h')
      · exact Or.inr (Or.inl h')⟩

instance : IsTrans (List Char × JsonVal) pairLe :=
  ⟨fun a b c h1 h2 => by
    rcases h1 with h1 | h1 <;> rcases h2 with h2 | h2
    · exact Or.inl (strLt_trans _ _ _ h1 h2)
    · exact Or.inl (h2 ▸ h1)
    · exact Or.inl (h1 ▸ h2)
    · exact Or.inr (h1.trans h2)⟩

def pairLt (p q : List Char × JsonVal) : Prop := strLt p.1 q.1 = true

instance : IsAntisymm (List Char × JsonVal) pairLt :=
  ⟨fun a b h1 h2 => (strLt_asymm _ _ h1 h2).elim⟩

theorem sorted_pairLt_of_sorted_nodup (l : List (List Char × JsonVal))
    (hs : l.Sorted pairLe) (hn : (l.map Prod.fst).Nodup) :
    l.Sorted pairLt := by
  have hne : l.Pairwise (fun p q : List Char × JsonVal => p.1 ≠ q.1) :=
    List.pairwise_map.mp hn
  exact (hs.and hne).imp (fun h => h.1.resolve_right h.2)

/-- `json.dumps(•, sort_keys=True)` is independent of dict insertion order:
permuted pair lists with distinct keys serialize identically. -/
theorem json_dumps_sorted_perm (p q : List (List Char × JsonVal))
    (hperm : p.Perm q) (hnodup : (q.map Prod.fst).Nodup) :
    json_dumps_sorted p = json_dumps_sorted q := by
  have hsp : (sortPairs p).Perm (sortPairs q) :=
    ((List.perm_insertionSort pairLe p).trans hperm).trans
      (List.perm_insertionSort pairLe q).symm
  have hn2 : ((sortPairs q).map Prod.fst).Nodup :=
    (((List.perm_insertionSort pairLe q).map Prod.fst).nodup_iff).mpr hnodup
  have hn1 : ((sortPairs p).map Prod.fst).Nodup :=
    ((hsp.map Prod.fst).nodup_iff).mpr hn2
  have heq : sortPairs p = sortPairs q :=
    List.eq_of_perm_of_sorted hsp
      (sorted_pairLt_of_sorted_nodup _ (List.sorted_insertionSort pairLe p) hn1)
      (sorted_pairLt_of_sorted_nodup _ (List.sorted_insertionSort pairLe q) hn2)
  unfold json_dumps_sorted
  rw [heq]

theorem char_toNat_inj {a b : Char} (h : a.toNat = b.toNat) : a = b :=
  Char.eq_of_val_eq (UInt32.ext h)

/-! Digits: every character of `natRepr` is a decimal digit, and the digit
string determines the number. -/

def digitVal (c : Char) : Nat := c.toNat - 48

def strVal (l : List Char) : Nat :=
  l.foldl (fun a c => a * 10 + digitVal c) 0

theorem natReprAux_digits :
    ∀ (fuel n : Nat), ∀ c ∈ natReprAux fuel n,
      48 ≤ c.toNat ∧ c.toNat ≤ 57 := by
  intro fuel
  induction fuel with
  | zero => intro n c hc; cases hc
  | succ f ih =>
      intro n c hc
      by_cases hn : n < 10
      · simp only [natReprAux, if_pos hn, List.mem_singleton] at hc
        subst hc
        revert hn
        revert n
        decide
      · simp only [natReprAux, if_neg hn, List.mem_append,
          List.mem_singleton] at hc
        rcases hc with hc | hc
        · exact ih (n / 10) c hc
        · subst hc
          have h10 : n % 10 < 10 := Nat.mod_lt n (by omega)
          revert h10
          generalize n % 10 = d
          intro h10
          revert h10
          revert d
          decide

theorem foldl_digits_append (l : List Char) (c : Char) (a : Nat) :
    (l ++ [c]).foldl (fun a c => a * 10 + digitVal c) a
      = (l.foldl (fun a c => a * 10 + digitVal c) a) * 10 + digitVal c := by
  rw [List.foldl_append]
  rfl

theorem strVal_natReprAux :
    ∀ (fuel n : Nat), n < fuel → strVal (natReprAux fuel n) = n := by
  intro fuel
  induction fuel with
  | zero => intro n h; omega
  | succ f ih =>
      intro n h
      by_cases hn : n < 10
      · simp only [natReprAux, if_pos hn]
        show 0 * 10 + digitVal (hexDig n) = n
        have : ∀ d, d < 10 → digitVal (hexDig d) = d := by decide
        rw [this n hn]
        omega
      · simp only [natReprAux, if_neg hn]
        show strVal (natReprAux f (n / 10) ++ [hexDig (n % 10)]) = n
        unfold strVal
        rw [foldl_digits_append]
        have hrec : n / 10 < f := by omega
        have := ih (n / 10) hrec
        unfold strVal at this
        rw [this]
        have hd : digitVal (hexDig (n % 10)) = n % 10 := by
          have h10 : n % 10 < 10 := Nat.mod_lt n (by omega)
          have : ∀ d, d < 10 → digitVal (hexDig d) = d := by decide
          exact this _ h10
        rw [hd]
        omega

theorem natRepr_inj {m n : Nat} (h : natRepr m = natRepr n) : m = n := by
  have hm := strVal_natReprAux (m + 1) m (Nat.lt_succ_self m)
  have hn := strVal_natReprAux (n + 1) n (Nat.lt_succ_self n)
  unfold natRepr at h
  rw [h] at hm
  rw [hn] at hm
  exact hm.symm

theorem natRepr_ne_nil (n : Nat) : natRepr n ≠ [] := by
  unfold natRepr natReprAux
  by_cases hn : n < 10
  · rw [if_pos hn]; simp
  · rw [if_neg hn]; simp

theorem natRepr_digits (n : Nat) : ∀ c ∈ natRepr n, 48 ≤ c.toNat ∧ c.toNat ≤ 57 :=
  natReprAux_digits (n + 1) n

theorem intRepr_inj {i j : Int} (h : intRepr i = intRepr j) : i = j := by
  unfold intRepr at h
  by_cases hi : i < 0 <;> by_cases hj : j < 0
  · rw [if_pos hi, if_pos hj] at h
    injection h with _ h2
    have := natRepr_inj h2
    omega
  · rw [if_pos hi, if_neg hj] at h
    cases hrep : natRepr j.toNat with
    | nil => exact absurd hrep (natRepr_ne_nil _)
    | cons c l =>
        rw [hrep] at h
        injection h with h1 _
        have := (natRepr_digits j.toNat c (by rw [hrep]; exact List.mem_cons_self c l)).1
        rw [← h1] at this
        exact absurd this (by decide)
  · rw [if_neg hi, if_pos hj] at h
    cases hrep : natRepr i.toNat with
    | nil => exact absurd hrep (natRepr_ne_nil _)
    | cons c l =>
        rw [hrep] at h
        injection h with h1 _
        have := (natRepr_digits i.toNat c (by rw [hrep]; exact List.mem_cons_self c l)).1
        rw [h1] at this
        exact absurd this (by decide)
  · rw [if_neg hi, if_neg hj] at h
    have := natRepr_inj h
    omega

theorem intRepr_no_comma (i : Int) : ∀ c ∈ intRepr i, c ≠ ',' := by
  intro c hc
  unfold intRepr at hc
  by_cases hi : i < 0
  · rw [if_pos hi] at hc
    rcases List.mem_cons.mp hc with hc | hc
    · subst hc; decide
    · have := natRepr_digits _ c hc
      intro hcomma
      subst hcomma
      revert this
      decide
  · rw [if_neg hi] at hc
    have := natRepr_digits _ c hc
    intro hcomma
    subst hcomma
    revert this
    decide

/-- Splitting concatenations at a reserved separator character. -/
theorem append_stop_split (stop : Char) :
    ∀ (x y r s : List Char), x ++ stop :: r = y ++ stop :: s →
      (∀ c ∈ x, c ≠ stop) → (∀ c ∈ y, c ≠ stop) → x = y ∧ r = s := by
  intro x
  induction x with
  | nil =>
      intro y r s h _ hy
      cases y with
      | nil =>
          simp only [List.nil_append] at h
          injection h with _ h2
          exact ⟨rfl, h2⟩
      | cons y0 ys =>
          simp only [List.nil_append, List.cons_append] at h
          injection h with h1 _
          exact absurd h1.symm (hy y0 (List.mem_cons_self y0 ys))
  | cons x0 xs ih =>
      intro y r s h hx hy
      cases y with
      | nil =>
          simp only [List.cons_append, List.nil_append] at h
          injection h with h1 _
          exact absurd h1 (hx x0 (List.mem_cons_self x0 xs))
      | cons y0 ys =>
          simp only [List.cons_append] at h
          injection h with h1 h2
          obtain ⟨hxy, hrs⟩ := ih ys r s h2
            (fun c hc => hx c (List.mem_cons_of_mem x0 hc))
            (fun c hc => hy c (List.mem_cons_of_mem y0 hc))
          exact ⟨by rw [h1, hxy], hrs⟩

/-! Shape analysis of the JSON escape: every escaped character renders as a
literal, a two-character escape, a `\uXXXX` unit or a surrogate pair, and
distinct characters have distinct, mutually non-prefixing renderings. -/

inductive EscShape : Type
  | lit (c : Char)
  | short (k : Char)
  | uni (v : Nat)
  | sur (hi lo : Nat)
deriving DecidableEq

def escShape (c : Char) : EscShape :=
  if c = '\\' then .short '\\'
  else if c = '"' then .short '"'
  else if c.toNat = 8 then .short 'b'
  else if c.toNat = 9 then .short 't'
  else if c.toNat = 10 then .short 'n'
  else if c.toNat = 12 then .short 'f'
  else if c.toNat = 13 then .short 'r'
  else if 0x20 ≤ c.toNat ∧ c.toNat ≤ 0x7e then .lit c
  else if c.toNat < 0x10000 then .uni c.toNat
  else .sur (0xd800 + (c.toNat - 0x10000) / 0x400)
    (0xdc00 + (c.toNat - 0x10000) % 0x400)

def shapeRender : EscShape → List Char
  | .lit c => [c]
  | .short k => ['\\', k]
  | .uni v => '\\' :: 'u' :: hex4 v
  | .sur hi lo => ('\\' :: 'u' :: hex4 hi) ++ ('\\' :: 'u' :: hex4 lo)

set_option maxHeartbeats 1000000 in
theorem escChar_eq_shapeRender (c : Char) :
    escChar c = shapeRender (escShape c) := by
  unfold escChar escShape
  split_ifs <;> rfl

def ShapeOK : EscShape → Prop
  | .lit c => c ≠ '\\' ∧ c ≠ '"' ∧ 0x20 ≤ c.toNat ∧ c.toNat ≤ 0x7e
  | .short k => k = '\\' ∨ k = '"' ∨ k = 'b' ∨ k = 't' ∨ k = 'n' ∨ k = 'f'
      ∨ k = 'r'
  | .uni v => v < 0x10000 ∧ ¬ (0xd800 ≤ v ∧ v ≤ 0xdfff)
  | .sur hi lo => 0xd800 ≤ hi ∧ hi ≤ 0xdbff ∧ 0xdc00 ≤ lo ∧ lo ≤ 0xdfff

theorem char_valid_nat (c : Char) :
    c.toNat < 0xd800 ∨ (0xdfff < c.toNat ∧ c.toNat < 0x110000) := c.valid

theorem escShape_ok (c : Char) : ShapeOK (escShape c) := by
  have hval := char_valid_nat c
  unfold escShape
  split_ifs with h1 h2 h3 h4 h5 h6 h7 h8 h9
  · exact Or.inl rfl
  · exact Or.inr (Or.inl rfl)
  · exact Or.inr (Or.inr (Or.inl rfl))
  · exact Or.inr (Or.inr (Or.inr (Or.inl rfl)))
  · exact Or.inr (Or.inr (Or.inr (Or.inr (Or.inl rfl))))
  · exact Or.inr (Or.inr (Or.inr (Or.inr (Or.inr (Or.inl rfl)))))
  · exact Or.inr (Or.inr (Or.inr (Or.inr (Or.inr (Or.inr rfl)))))
  · exact ⟨h1, h2, h8⟩
  · exact ⟨h9, by omega⟩
  · refine ⟨by omega, ?_, by omega, ?_⟩
    · have : (c.toNat - 0x10000) / 0x400 ≤ 0x3ff := by omega
      omega
    · have : (c.toNat - 0x10000) % 0x400 ≤ 0x3ff := by omega
      omega

def shapeCode : EscShape → Nat
  | .lit c => c.toNat
  | .short k =>
      if k = 'b' then 8 else if k = 't' then 9 else if k = 'n' then 10
      else if k = 'f' then 12 else if k = 'r' then 13 else k.toNat
  | .uni v => v
  | .sur hi lo => (hi - 0xd800) * 0x400 + (lo - 0xdc00) + 0x10000

theorem shapeCode_escShape (c : Char) : shapeCode (escShape c) = c.toNat := by
  unfold escShape
  split_ifs with h1 h2 h3 h4 h5 h6 h7 h8 h9
  · subst h1; decide
  · subst h2; decide
  · rw [h3]; decide
  · rw [h4]; decide
  · rw [h5]; decide
  · rw [h6]; decide
  · rw [h7]; decide
  · rfl
  · rfl
  · simp only [shapeCode]
    omega

theorem escShape_inj {c c' : Char} (h : escShape c = escShape c') : c = c' :=
  char_toNat_inj
    (by rw [← shapeCode_escShape c, ← shapeCode_escShape c', h])

theorem hex4_length (v : Nat) : (hex4 v).length = 4 := rfl

theorem hex4_inj {v v' : Nat} (hv : v < 0x10000) (hv' : v' < 0x10000)
    (h : hex4 v = hex4 v') : v = v' := by
  unfold hex4 at h
  injection h with e3 h
  injection h with e2 h
  injection h with e1 h
  injection h with e0 _
  have hdig : ∀ a, a < 16 → ∀ b, b < 16 → hexDig a = hexDig b → a = b := by decide
  have d3 := hdig _ (Nat.mod_lt _ (by omega)) _ (Nat.mod_lt _ (by omega)) e3
  have d2 := hdig _ (Nat.mod_lt _ (by omega)) _ (Nat.mod_lt _ (by omega)) e2
  have d1 := hdig _ (Nat.mod_lt _ (by omega)) _ (Nat.mod_lt _ (by omega)) e1
  have d0 := hdig _ (Nat.mod_lt _ (by omega)) _ (Nat.mod_lt _ (by omega)) e0
  omega

theorem shapeRender_biprefix (s s' : EscShape) (hs : ShapeOK s)
    (hs' : ShapeOK s') (x y : List Char)
    (h : shapeRender s ++ x = shapeRender s' ++ y) : s = s' ∧ x = y := by
  cases s with
  | lit c =>
      cases s' with
      | lit c' =>
          simp only [shapeRender, List.cons_append, List.nil_append] at h
          injection h with h1 h2
          exact ⟨by rw [h1], h2⟩
      | short k =>
          simp only [shapeRender, List.cons_append, List.nil_append] at h
          injection h with h1 _
          exact absurd h1 hs.1
      | uni v =>
          simp only [shapeRender, List.cons_append, List.nil_append] at h
          injection h with h1 _
          exact absurd h1 hs.1
      | sur hi lo =>
          simp only [shapeRender, List.cons_append, List.nil_append,
            List.append_assoc] at h
          injection h with h1 _
          exact absurd h1 hs.1
  | short k =>
      cases s' with
      | lit c' =>
          simp only [shapeRender, List.cons_append, List.nil_append] at h
          injection h with h1 _
          exact absurd h1.symm hs'.1
      | short k' =>
          simp only [shapeRender, List.cons_append, List.nil_append] at h
          injection h with _ h
          injection h with h1 h2
          exact ⟨by rw [h1], h2⟩
      | uni v =>
          simp only [shapeRender, List.cons_append, List.nil_append] at h
          injection h with _ h
          injection h with h1 _
          rcases hs with rfl | rfl | rfl | rfl | rfl | rfl | rfl <;> cases h1
      | sur hi lo =>
          simp only [shapeRender, List.cons_append, List.nil_append,
            List.append_assoc] at h
          injection h with _ h
          injection h with h1 _
          rcases hs with rfl | rfl | rfl | rfl | rfl | rfl | rfl <;> cases h1
  | uni v =>
      cases s' with
      | lit c' =>
          simp only [shapeRender, List.cons_append, List.nil_append] at h
          injection h with h1 _
          exact absurd h1.symm hs'.1
      | short k' =>
          simp only [shapeRender, List.cons_append, List.nil_append] at h
          injection h with _ h
          injection h with h1 _
          rcases hs' with rfl | rfl | rfl | rfl | rfl | rfl | rfl <;> cases h1
      | uni v' =>
          simp only [shapeRender, List.cons_append, List.nil_append] at h
          injection h with _ h
          injection h with _ h
          obtain ⟨hh, ht⟩ := List.append_inj h (by rw [hex4_length, hex4_length])
          exact ⟨by rw [hex4_inj hs.1 hs'.1 hh], ht⟩
      | sur hi lo =>
          obtain ⟨hv1, hv2⟩ := hs
          obtain ⟨ha, hb, hc2, hd⟩ := hs'
          simp only [shapeRender, List.cons_append, List.nil_append,
            List.append_assoc] at h
          injection h with _ h
          injection h with _ h
          obtain ⟨hh, _⟩ := List.append_inj h (by rw [hex4_length, hex4_length])
          have := hex4_inj hv1 (by omega : hi < 0x10000) hh
          exact absurd ⟨by omega, by omega⟩ hv2
  | sur hi lo =>
      cases s' with
      | lit c' =>
          simp only [shapeRender, List.cons_append, List.nil_append,
            List.append_assoc] at h
          injection h with h1 _
          exact absurd h1.symm hs'.1
      | short k' =>
          simp only [shapeRender, List.cons_append, List.nil_append,
            List.append_assoc] at h
          injection h with _ h
          injection h with h1 _
          rcases hs' with rfl | rfl | rfl | rfl | rfl | rfl | rfl <;> cases h1
      | uni v' =>
          obtain ⟨ha, hb, hc2, hd⟩ := hs
          obtain ⟨hv1, hv2⟩ := hs'
          simp only [shapeRender, List.cons_append, List.nil_append,
            List.append_assoc] at h
          injection h with _ h
          injection h with _ h
          obtain ⟨hh, _⟩ := List.append_inj h (by rw [hex4_length, hex4_length])
          have := hex4_inj (by omega : hi < 0x10000) hv1 hh
          exact absurd ⟨by omega, by omega⟩ hv2
      | sur hi' lo' =>
          obtain ⟨ha, hb, hc2, hd⟩ := hs
          obtain ⟨ha', hb', hc2', hd'⟩ := hs'
          simp only [shapeRender, List.cons_append, List.nil_append,
            List.append_assoc] at h
          injection h with _ h
          injection h with _ h
          obtain ⟨hh, ht⟩ := List.append_inj h (by rw [hex4_length, hex4_length])
          have hhi := hex4_inj (by omega : hi < 0x10000)
            (by omega : hi' < 0x10000) hh
          injection ht with _ ht
          injection ht with _ ht
          obtain ⟨hl, hxy⟩ := List.append_inj ht (by rw [hex4_length, hex4_length])
          have hlo := hex4_inj (by omega : lo < 0x10000)
            (by omega : lo' < 0x10000) hl
          exact ⟨by rw [hhi, hlo], hxy⟩

theorem escChar_biprefix {c c' : Char} {x y : List Char}
    (h : escChar c ++ x = escChar c' ++ y) : c = c' ∧ x = y := by
  rw [escChar_eq_shapeRender, escChar_eq_shapeRender] at h
  obtain ⟨hs, hxy⟩ :=
    shapeRender_biprefix _ _ (escShape_ok c) (escShape_ok c') x y h
  exact ⟨escShape_inj hs, hxy⟩

theorem escChar_head_ne_quote (c : Char) :
    ∀ (hd : Char) (tl : List Char), escChar c = hd :: tl → hd ≠ '"' := by
  intro hd tl h
  rw [escChar_eq_shapeRender] at h
  have hok := escShape_ok c
  cases hshape : escShape c with
  | lit c0 =>
      rw [hshape] at h hok
      injection h with h1 _
      rw [← h1]
      exact hok.2.1
  | short k =>
      rw [hshape] at h
      injection h with h1 _
      rw [← h1]; decide
  | uni v =>
      rw [hshape] at h
      injection h with h1 _
      rw [← h1]; decide
  | sur hi lo =>
      rw [hshape] at h
      simp only [shapeRender, List.cons_append] at h
      injection h with h1 _
      rw [← h1]; decide

theorem escape_quote_split :
    ∀ (tA tB rA rB : List Char),
      escape tA ++ '"' :: rA = escape tB ++ '"' :: rB →
      tA = tB ∧ rA = rB := by
  intro tA
  induction tA with
  | nil =>
      intro tB rA rB h
      cases tB with
      | nil =>
          simp only [escape, List.nil_append] at h
          injection h with _ h2
          exact ⟨rfl, h2⟩
      | cons c t =>
          simp only [escape, List.nil_append, List.append_assoc] at h
          cases hesc : escChar c with
          | nil =>
              have : shapeRender (escShape c) = [] := by
                rw [← escChar_eq_shapeRender]; exact hesc
              cases hs : escShape c <;> rw [hs] at this <;> simp [shapeRender] at this
          | cons hd tl =>
              rw [hesc, List.cons_append] at h
              injection h with h1 _
              exact absurd h1.symm (escChar_head_ne_quote c hd tl hesc)
  | cons c t ih =>
      intro tB rA rB h
      cases tB with
      | nil =>
          simp only [escape, List.nil_append, List.append_assoc] at h
          cases hesc : escChar c with
          | nil =>
              have : shapeRender (escShape c) = [] := by
                rw [← escChar_eq_shapeRender]; exact hesc
              cases hs : escShape c <;> rw [hs] at this <;> simp [shapeRender] at this
          | cons hd tl =>
              rw [hesc, List.cons_append] at h
              injection h with h1 _
              exact absurd h1 (escChar_head_ne_quote c hd tl hesc)
      | cons c' t' =>
          simp only [escape, List.append_assoc] at h
          obtain ⟨hc, hrest⟩ := escChar_biprefix h
          obtain ⟨ht, hr⟩ := ih t' rA rB hrest
          exact ⟨by rw [hc, ht], hr⟩

theorem pairLe_of_strLt {k1 k2 : List Char} {v1 v2 : JsonVal}
    (h : strLt k1 k2 = true) : pairLe (k1, v1) (k2, v2) := Or.inl h

theorem not_pairLe {k1 k2 : List Char} {v1 v2 : JsonVal}
    (h1 : strLt k1 k2 = false) (h2 : k1 ≠ k2) :
    ¬ pairLe (k1, v1) (k2, v2) := by
  intro hp
  rcases hp with hp | hp
  · rw [h1] at hp; cases hp
  · exact h2 hp

theorem sortPairs_key_data (o : ChunkingOptions) :
    sortPairs (key_data o)
      = [("max_tokens".toList, JsonVal.num o.max_tokens),
         ("merge_peers".toList, JsonVal.bool o.merge_peers),
         ("tokenizer".toList, tokVal o),
         ("use_markdown_tables".toList, JsonVal.bool o.use_markdown_tables)] := by
  unfold sortPairs key_data
  simp only [List.insertionSort]
  rw [show List.orderedInsert pairLe
      ("use_markdown_tables".toList, JsonVal.bool o.use_markdown_tables)
      ([] : List (List Char × JsonVal))
    = [("use_markdown_tables".toList, JsonVal.bool o.use_markdown_tables)]
    from rfl]
  rw [show List.orderedInsert pairLe
      ("merge_peers".toList, JsonVal.bool o.merge_peers)
      [("use_markdown_tables".toList, JsonVal.bool o.use_markdown_tables)]
    = [("merge_peers".toList, JsonVal.bool o.merge_peers),
       ("use_markdown_tables".toList, JsonVal.bool o.use_markdown_tables)]
    from by
      simp only [List.orderedInsert]
      rw [if_pos (pairLe_of_strLt (by decide))]]
  rw [show List.orderedInsert pairLe
      ("max_tokens".toList, JsonVal.num o.max_tokens)
      [("merge_peers".toList, JsonVal.bool o.merge_peers),
       ("use_markdown_tables".toList, JsonVal.bool o.use_markdown_tables)]
    = [("max_tokens".toList, JsonVal.num o.max_tokens),
       ("merge_peers".toList, JsonVal.bool o.merge_peers),
       ("use_markdown_tables".toList, JsonVal.bool o.use_markdown_tables)]
    from by
      simp only [List.orderedInsert]
      rw [if_pos (pairLe_of_strLt (by decide))]]
  simp only [List.orderedInsert]
  rw [if_neg (not_pairLe (by decide) (by decide)),
    if_neg (not_pairLe (by decide) (by decide)),
    if_pos (pairLe_of_strLt (by decide))]

theorem render_key_mt :
    renderString ("max_tokens".toList)
      = ['"', 'm', 'a', 'x', '_', 't', 'o', 'k', 'e', 'n', 's', '"'] := by
  decide

theorem render_key_mp :
    renderString ("merge_peers".toList)
      = ['"', 'm', 'e', 'r', 'g', 'e', '_', 'p', 'e', 'e', 'r', 's', '"'] := by
  decide

theorem render_key_tok :
    renderString ("tokenizer".toList)
      = ['"', 't', 'o', 'k', 'e', 'n', 'i', 'z', 'e', 'r', '"'] := by
  decide

theorem render_key_umt :
    renderString ("use_markdown_tables".toList)
      = ['"', 'u', 's', 'e', '_', 'm', 'a', 'r', 'k', 'd', 'o', 'w', 'n', '_',
         't', 'a', 'b', 'l', 'e', 's', '"'] := by
  decide

theorem colon_chars : (": ".toList) = [':', ' '] := by decide

theorem comma_chars : (", ".toList) = [',', ' '] := by decide

theorem render_null : renderJson JsonVal.null = ['n', 'u', 'l', 'l'] := by decide

theorem render_num (n : Int) : renderJson (JsonVal.num n) = intRepr n := rfl

theorem render_str (s : List Char) :
    renderJson (JsonVal.str s) = '"' :: (escape s ++ ['"']) := rfl

theorem render_bool_no_comma :
    ∀ (b : Bool), ∀ c ∈ renderJson (JsonVal.bool b), c ≠ ',' := by decide

theorem render_bool_no_brace :
    ∀ (b : Bool), ∀ c ∈ renderJson (JsonVal.bool b), c ≠ '\x7d' := by decide

theorem render_bool_inj :
    ∀ (b b' : Bool),
      renderJson (JsonVal.bool b) = renderJson (JsonVal.bool b') → b = b' := by
  decide

/-- The crux of C5: the sorted JSON serialization of `key_data` determines
the configuration. -/
theorem cache_serialize_inj (A B : ChunkingOptions)
    (h : json_dumps_sorted (key_data A) = json_dumps_sorted (key_data B)) :
    A = B := by
  obtain ⟨tokA, mtA, mpA, umtA⟩ := A
  obtain ⟨tokB, mtB, mpB, umtB⟩ := B
  unfold json_dumps_sorted at h
  rw [sortPairs_key_data, sortPairs_key_data] at h
  simp only [List.map_cons, List.map_nil, joinComma, renderPair,
    render_key_mt, render_key_mp, render_key_tok, render_key_umt,
    colon_chars, comma_chars, render_num, List.cons_append, List.nil_append,
    List.append_assoc, List.cons.injEq, eq_self_iff_true, true_and] at h
  obtain ⟨hmt, h⟩ := append_stop_split ',' _ _ _ _ h
    (intRepr_no_comma _) (intRepr_no_comma _)
  have hMT : mtA = mtB := intRepr_inj hmt
  simp only [List.cons.injEq, eq_self_iff_true, true_and] at h
  obtain ⟨hmp, h⟩ := append_stop_split ',' _ _ _ _ h
    (render_bool_no_comma _) (render_bool_no_comma _)
  have hMP : mpA = mpB := render_bool_inj _ _ hmp
  simp only [List.cons.injEq, eq_self_iff_true, true_and] at h
  have hTOKUMT : tokA = tokB
      ∧ renderJson (JsonVal.bool umtA) ++ ['\x7d']
        = renderJson (JsonVal.bool umtB) ++ ['\x7d'] := by
    cases tokA with
    | none =>
        cases tokB with
        | none =>
            refine ⟨rfl, ?_⟩
            simp only [tokVal, render_null, List.cons_append, List.nil_append,
              List.cons.injEq, eq_self_iff_true, true_and] at h
            simpa using h
        | some tB =>
            simp only [tokVal, render_null, render_str, List.cons_append,
              List.nil_append] at h
            injection h with h1 _
            exact absurd h1 (by decide)
    | some tA =>
        cases tokB with
        | none =>
            simp only [tokVal, render_null, render_str, List.cons_append,
              List.nil_append] at h
            injection h with h1 _
            exact absurd h1 (by decide)
        | some tB =>
            simp only [tokVal, render_str, List.cons_append, List.nil_append,
              List.append_assoc, List.cons.injEq, eq_self_iff_true,
              true_and] at h
            obtain ⟨htok, h⟩ := escape_quote_split tA tB _ _ h
            refine ⟨by rw [htok], ?_⟩
            simp only [List.cons.injEq, eq_self_iff_true, true_and] at h
            simpa using h
  obtain ⟨hTOK, humt⟩ := hTOKUMT
  obtain ⟨humt', _⟩ := append_stop_split '\x7d' _ _ _ _ humt
    (render_bool_no_brace _) (render_bool_no_brace _)
  have hUMT : umtA = umtB := render_bool_inj _ _ humt'
  rw [hMT, hMP, hTOK, hUMT]

theorem key_data_keys (o : ChunkingOptions) :
    (key_data o).map Prod.fst
      = [("tokenizer".toList), ("max_tokens".toList), ("merge_peers".toList),
         ("use_markdown_tables".toList)] := rfl

/-- C5: the cache key is a deterministic, field-order-independent function
of the configuration — any insertion order of the four `key_data` fields
serializes to the same string, hence hashes to the same key — and, for any
collision-resistant (injective) digest, configurations differing in any of
the four fields receive different keys. -/
theorem claim_C5_cache_key (digest : List Char → List Char)
    (hdig : Function.Injective digest) (A B : ChunkingOptions)
    (pairs : List (List Char × JsonVal)) (hperm : pairs.Perm (key_data A)) :
    digest (json_dumps_sorted pairs) = generate_cache_key digest A
    ∧ (A ≠ B → generate_cache_key digest A ≠ generate_cache_key digest B) := by
  constructor
  · unfold generate_cache_key
    congr 1
    apply json_dumps_sorted_perm pairs (key_data A) hperm
    rw [key_data_keys]
    decide
  · intro hne hkey
    exact hne (cache_serialize_inj A B (hdig hkey))

/-- Witness for C5: identity digest, a reordered field list for `A`, and a
`B` differing from `A` only in `max_tokens`. -/
theorem claim_C5_cache_key_witness :
    id (json_dumps_sorted
        [("use_markdown_tables".toList, JsonVal.bool false),
         ("merge_peers".toList, JsonVal.bool true),
         ("max_tokens".toList, JsonVal.num 512),
         ("tokenizer".toList, JsonVal.null)])
      = generate_cache_key id
          { tokenizer := none, max_tokens := 512, merge_peers := true,
            use_markdown_tables := false }
    ∧ generate_cache_key id
          { tokenizer := none, max_tokens := 512, merge_peers := true,
            use_markdown_tables := false }
        ≠ generate_cache_key id
            { tokenizer := none, max_tokens := 1024, merge_peers := true,
              use_markdown_tables := false } :=
  ⟨(claim_C5_cache_key id (fun _ _ hh => hh)
      { tokenizer := none, max_tokens := 512, merge_peers := true,
        use_markdown_tables := false }
      { tokenizer := none, max_tokens := 1024, merge_peers := true,
        use_markdown_tables := false }
      [("use_markdown_tables".toList, JsonVal.bool false),
       ("merge_peers".toList, JsonVal.bool true),
       ("max_tokens".toList, JsonVal.num 512),
       ("tokenizer".toList, JsonVal.null)] (by decide)).1,
    (claim_C5_cache_key id (fun _ _ hh => hh)
      { tokenizer := none, max_tokens := 512, merge_peers := true,
        use_markdown_tables := false }
      { tokenizer := none, max_tokens := 1024, merge_peers := true,
        use_markdown_tables := false }
      [("use_markdown_tables".toList, JsonVal.bool false),
       ("merge_peers".toList, JsonVal.bool true),
       ("max_tokens".toList, JsonVal.num 512),
       ("tokenizer".toList, JsonVal.null)] (by decide)).2 (by decide)⟩
